import Mathlib

/-!
Verification of the DNC memory subsystem (`src/model.py`).

The Python source defines a `DNC` class whose algorithmic methods are
`content_lookup`, `allocation_weighting`, `partition_interface`, the
per-step entry point `call`, and the stubbed `write`/`read` steps.
This file gives a shallow embedding of those operations and proves the
specified properties.  Machine floats are idealised as `ℚ` where the
computation is purely algebraic (partitioning, allocation, memory
updates) and as `ℝ` where transcendental activations (softmax, softplus,
sigmoid, l2-normalisation) occur.
-/

namespace DNC

/-! ## Interface partitioning (`partition_interface`, src lines 162-196)

`tf.dynamic_partition(data, partition, 10)` groups the entries of `data`
by their label in `partition`, keeping the original order inside each
group.  The label vector built at src lines 164-167 is a concatenation
of constant blocks. -/

/-- The partition label vector of `partition_interface`:
`[0]*(R*W) + [1]*R + [2]*W + [3] + [4]*W + [5]*W + [6]*R + [7] + [8] + [9]*(R*3)`. -/
def partitionLabels (R W : ℕ) : List ℕ :=
  List.replicate (R * W) 0 ++ List.replicate R 1 ++ List.replicate W 2 ++ [3] ++
    List.replicate W 4 ++ List.replicate W 5 ++ List.replicate R 6 ++ [7] ++ [8] ++
    List.replicate (R * 3) 9

/-- `tf.dynamic_partition`: the sub-list of `data` whose label in `labels` is `j`,
in original order. -/
def dynamicPartition {α : Type} (data : List α) (labels : List ℕ) (j : ℕ) : List α :=
  ((data.zip labels).filter (fun p => p.2 == j)).map Prod.fst

/-- The interface vector length `I = R*W + 3*W + 5*R + 3` (src line 43). -/
def interfaceDim (R W : ℕ) : ℕ := R * W + 3 * W + 5 * R + 3

theorem length_partitionLabels (R W : ℕ) :
    (partitionLabels R W).length = interfaceDim R W := by
  simp [partitionLabels, interfaceDim]
  ring

theorem dynamicPartition_append {α : Type} (d₁ d₂ : List α) (l₁ l₂ : List ℕ) (j : ℕ)
    (h : d₁.length = l₁.length) :
    dynamicPartition (d₁ ++ d₂) (l₁ ++ l₂) j =
      dynamicPartition d₁ l₁ j ++ dynamicPartition d₂ l₂ j := by
  unfold dynamicPartition
  rw [List.zip_append h, List.filter_append, List.map_append]

theorem dynamicPartition_replicate {α : Type} (d : List α) (n j j' : ℕ)
    (h : d.length = n) :
    dynamicPartition d (List.replicate n j') j = if j' = j then d else [] := by
  subst h
  induction d with
  | nil => simp [dynamicPartition]
  | cons a t ih =>
    simp only [List.length_cons, List.replicate_succ]
    unfold dynamicPartition at *
    simp only [List.zip_cons_cons, List.filter_cons]
    by_cases hj : j' = j
    · subst hj
      simp at ih
      simp [ih]
    · simp only [hj, if_neg hj]
      have : (j' == j) = false := by simpa using hj
      simp [this, ih, hj]

theorem dynamicPartition_singleton {α : Type} (a : α) (l j : ℕ) :
    dynamicPartition [a] [l] j = if l = j then [a] else [] := by
  by_cases h : l = j <;> simp [dynamicPartition, h]

/-- `tf.dynamic_partition` on the ten-block label vector of `partition_interface`
extracts exactly the ten contiguous chunks. -/
theorem dynamicPartition_fields {α : Type} (R W j : ℕ)
    (c0 c1 c2 c3 c4 c5 c6 c7 c8 c9 : List α)
    (h0 : c0.length = R * W) (h1 : c1.length = R) (h2 : c2.length = W)
    (h3 : c3.length = 1) (h4 : c4.length = W) (h5 : c5.length = W)
    (h6 : c6.length = R) (h7 : c7.length = 1) (h8 : c8.length = 1)
    (h9 : c9.length = R * 3) :
    dynamicPartition
      (c0 ++ (c1 ++ (c2 ++ (c3 ++ (c4 ++ (c5 ++ (c6 ++ (c7 ++ (c8 ++ c9)))))))))
      (partitionLabels R W) j
    = (if 0 = j then c0 else []) ++ ((if 1 = j then c1 else []) ++
      ((if 2 = j then c2 else []) ++ ((if 3 = j then c3 else []) ++
      ((if 4 = j then c4 else []) ++ ((if 5 = j then c5 else []) ++
      ((if 6 = j then c6 else []) ++ ((if 7 = j then c7 else []) ++
      ((if 8 = j then c8 else []) ++ (if 9 = j then c9 else []))))))))) := by
  obtain ⟨a3, rfl⟩ := List.length_eq_one.mp h3
  obtain ⟨a7, rfl⟩ := List.length_eq_one.mp h7
  obtain ⟨a8, rfl⟩ := List.length_eq_one.mp h8
  unfold partitionLabels
  simp only [List.append_assoc]
  rw [dynamicPartition_append _ _ _ _ _ (by simp [h0]),
      dynamicPartition_append _ _ _ _ _ (by simp [h1]),
      dynamicPartition_append _ _ _ _ _ (by simp [h2]),
      dynamicPartition_append _ _ _ _ _ (by simp),
      dynamicPartition_append _ _ _ _ _ (by simp [h4]),
      dynamicPartition_append _ _ _ _ _ (by simp [h5]),
      dynamicPartition_append _ _ _ _ _ (by simp [h6]),
      dynamicPartition_append _ _ _ _ _ (by simp),
      dynamicPartition_append _ _ _ _ _ (by simp),
      dynamicPartition_replicate _ _ _ _ h0,
      dynamicPartition_replicate _ _ _ _ h1,
      dynamicPartition_replicate _ _ _ _ h2,
      dynamicPartition_singleton,
      dynamicPartition_replicate _ _ _ _ h4,
      dynamicPartition_replicate _ _ _ _ h5,
      dynamicPartition_replicate _ _ _ _ h6,
      dynamicPartition_singleton,
      dynamicPartition_singleton,
      dynamicPartition_replicate _ _ _ _ h9]

/-- C2: for every interface vector of length `I = R·W + 3·W + 5·R + 3`,
`partition_interface`'s `tf.dynamic_partition` call slices it into exactly ten
contiguous fields in the fixed order `R·W` read keys, `R` read strengths,
`W` write key, `1` write strength, `W` erase, `W` write vector, `R` free
gates, `1` allocation gate, `1` write gate, `3·R` read-mode logits. -/
theorem partition_interface_slices (R W : ℕ) (v : List ℚ)
    (hI : v.length = interfaceDim R W) :
    dynamicPartition v (partitionLabels R W) 0 = v.take (R*W) ∧
    dynamicPartition v (partitionLabels R W) 1 = (v.drop (R*W)).take R ∧
    dynamicPartition v (partitionLabels R W) 2 = (v.drop (R*W + R)).take W ∧
    dynamicPartition v (partitionLabels R W) 3 = (v.drop (R*W + R + W)).take 1 ∧
    dynamicPartition v (partitionLabels R W) 4 = (v.drop (R*W + R + W + 1)).take W ∧
    dynamicPartition v (partitionLabels R W) 5 = (v.drop (R*W + R + W + 1 + W)).take W ∧
    dynamicPartition v (partitionLabels R W) 6 = (v.drop (R*W + R + W + 1 + W + W)).take R ∧
    dynamicPartition v (partitionLabels R W) 7 =
      (v.drop (R*W + R + W + 1 + W + W + R)).take 1 ∧
    dynamicPartition v (partitionLabels R W) 8 =
      (v.drop (R*W + R + W + 1 + W + W + R + 1)).take 1 ∧
    dynamicPartition v (partitionLabels R W) 9 =
      (v.drop (R*W + R + W + 1 + W + W + R + 1 + 1)).take (R*3) := by
  rw [interfaceDim] at hI
  have t9 : v.drop (R*W + R + W + 1 + W + W + R + 1 + 1)
      = (v.drop (R*W + R + W + 1 + W + W + R + 1 + 1)).take (R*3) :=
    (List.take_of_length_le (by simp; omega)).symm
  have t8 : v.drop (R*W + R + W + 1 + W + W + R + 1)
      = (v.drop (R*W + R + W + 1 + W + W + R + 1)).take 1 ++
        (v.drop (R*W + R + W + 1 + W + W + R + 1 + 1)).take (R*3) :=
    ((List.drop_take_append_drop v _ 1).symm).trans (congrArg _ t9)
  have t7 : v.drop (R*W + R + W + 1 + W + W + R)
      = (v.drop (R*W + R + W + 1 + W + W + R)).take 1 ++
        ((v.drop (R*W + R + W + 1 + W + W + R + 1)).take 1 ++
         (v.drop (R*W + R + W + 1 + W + W + R + 1 + 1)).take (R*3)) :=
    ((List.drop_take_append_drop v _ 1).symm).trans (congrArg _ t8)
  have t6 : v.drop (R*W + R + W + 1 + W + W)
      = (v.drop (R*W + R + W + 1 + W + W)).take R ++
        ((v.drop (R*W + R + W + 1 + W + W + R)).take 1 ++
         ((v.drop (R*W + R + W + 1 + W + W + R + 1)).take 1 ++
          (v.drop (R*W + R + W + 1 + W + W + R + 1 + 1)).take (R*3))) :=
    ((List.drop_take_append_drop v _ R).symm).trans (congrArg _ t7)
  have t5 : v.drop (R*W + R + W + 1 + W)
      = (v.drop (R*W + R + W + 1 + W)).take W ++
        ((v.drop (R*W + R + W + 1 + W + W)).take R ++
         ((v.drop (R*W + R + W + 1 + W + W + R)).take 1 ++
          ((v.drop (R*W + R + W + 1 + W + W + R + 1)).take 1 ++
           (v.drop (R*W + R + W + 1 + W + W + R + 1 + 1)).take (R*3)))) :=
    ((List.drop_take_append_drop v _ W).symm).trans (congrArg _ t6)
  have t4 : v.drop (R*W + R + W + 1)
      = (v.drop (R*W + R + W + 1)).take W ++
        ((v.drop (R*W + R + W + 1 + W)).take W ++
         ((v.drop (R*W + R + W + 1 + W + W)).take R ++
          ((v.drop (R*W + R + W + 1 + W + W + R)).take 1 ++
           ((v.drop (R*W + R + W + 1 + W + W + R + 1)).take 1 ++
            (v.drop (R*W + R + W + 1 + W + W + R + 1 + 1)).take (R*3))))) :=
    ((List.drop_take_append_drop v _ W).symm).trans (congrArg _ t5)
  have t3 : v.drop (R*W + R + W)
      = (v.drop (R*W + R + W)).take 1 ++
        ((v.drop (R*W + R + W + 1)).take W ++
         ((v.drop (R*W + R + W + 1 + W)).take W ++
          ((v.drop (R*W + R + W + 1 + W + W)).take R ++
           ((v.drop (R*W + R + W + 1 + W + W + R)).take 1 ++
            ((v.drop (R*W + R + W + 1 + W + W + R + 1)).take 1 ++
             (v.drop (R*W + R + W + 1 + W + W + R + 1 + 1)).take (R*3)))))) :=
    ((List.drop_take_append_drop v _ 1).symm).trans (congrArg _ t4)
  have t2 : v.drop (R*W + R)
      = (v.drop (R*W + R)).take W ++
        ((v.drop (R*W + R + W)).take 1 ++
         ((v.drop (R*W + R + W + 1)).take W ++
          ((v.drop (R*W + R + W + 1 + W)).take W ++
           ((v.drop (R*W + R + W + 1 + W + W)).take R ++
            ((v.drop (R*W + R + W + 1 + W + W + R)).take 1 ++
             ((v.drop (R*W + R + W + 1 + W + W + R + 1)).take 1 ++
              (v.drop (R*W + R + W + 1 + W + W + R + 1 + 1)).take (R*3))))))) :=
    ((List.drop_take_append_drop v _ W).symm).trans (congrArg _ t3)
  have t1 : v.drop (R*W)
      = (v.drop (R*W)).take R ++
        ((v.drop (R*W + R)).take W ++
         ((v.drop (R*W + R + W)).take 1 ++
          ((v.drop (R*W + R + W + 1)).take W ++
           ((v.drop (R*W + R + W + 1 + W)).take W ++
            ((v.drop (R*W + R + W + 1 + W + W)).take R ++
             ((v.drop (R*W + R + W + 1 + W + W + R)).take 1 ++
              ((v.drop (R*W + R + W + 1 + W + W + R + 1)).take 1 ++
               (v.drop (R*W + R + W + 1 + W + W + R + 1 + 1)).take (R*3)))))))) :=
    ((List.drop_take_append_drop v _ R).symm).trans (congrArg _ t2)
  have hv : v
      = v.take (R*W) ++
        ((v.drop (R*W)).take R ++
         ((v.drop (R*W + R)).take W ++
          ((v.drop (R*W + R + W)).take 1 ++
           ((v.drop (R*W + R + W + 1)).take W ++
            ((v.drop (R*W + R + W + 1 + W)).take W ++
             ((v.drop (R*W + R + W + 1 + W + W)).take R ++
              ((v.drop (R*W + R + W + 1 + W + W + R)).take 1 ++
               ((v.drop (R*W + R + W + 1 + W + W + R + 1)).take 1 ++
                (v.drop (R*W + R + W + 1 + W + W + R + 1 + 1)).take (R*3))))))))) :=
    ((List.take_append_drop (R*W) v).symm).trans (congrArg _ t1)
  have main := fun j => dynamicPartition_fields R W j
    (v.take (R*W)) ((v.drop (R*W)).take R) ((v.drop (R*W + R)).take W)
    ((v.drop (R*W + R + W)).take 1) ((v.drop (R*W + R + W + 1)).take W)
    ((v.drop (R*W + R + W + 1 + W)).take W) ((v.drop (R*W + R + W + 1 + W + W)).take R)
    ((v.drop (R*W + R + W + 1 + W + W + R)).take 1)
    ((v.drop (R*W + R + W + 1 + W + W + R + 1)).take 1)
    ((v.drop (R*W + R + W + 1 + W + W + R + 1 + 1)).take (R*3))
    (by simp; omega) (by simp; omega) (by simp; omega) (by simp; omega)
    (by simp; omega) (by simp; omega) (by simp; omega) (by simp; omega)
    (by simp; omega) (by simp; omega)
  rw [← hv] at main
  refine ⟨?_, ?_, ?_, ?_, ?_, ?_, ?_, ?_, ?_, ?_⟩ <;>
    first
      | simpa using main 0
      | simpa using main 1
      | simpa using main 2
      | simpa using main 3
      | simpa using main 4
      | simpa using main 5
      | simpa using main 6
      | simpa using main 7
      | simpa using main 8
      | simpa using main 9

/-! ## Allocation weighting (`allocation_weighting`, src lines 117-145)

`tf.nn.top_k(-1 * u, k=N)` returns the values of `-1 * u` in descending
order together with their original indices (ties broken towards lower
indices).  We embed the index permutation as an insertion sort of
`List.finRange N` under the corresponding linear order on indices. -/

/-- The order in which `tf.nn.top_k(-1 * u, k=N)` emits indices: `i` before `j`
iff `-1*u i` is larger, or equal with `i ≤ j` (ties keep index order). -/
def topkRel {N : ℕ} (u : Fin N → ℚ) (i j : Fin N) : Prop :=
  -1 * u j < -1 * u i ∨ (-1 * u i = -1 * u j ∧ i ≤ j)

instance {N : ℕ} (u : Fin N → ℚ) : DecidableRel (topkRel u) := fun i j => by
  unfold topkRel; infer_instance

instance {N : ℕ} (u : Fin N → ℚ) : IsTotal (Fin N) (topkRel u) := by
  constructor
  intro i j
  unfold topkRel
  rcases lt_trichotomy (-1 * u i) (-1 * u j) with h | h | h
  · exact Or.inr (Or.inl h)
  · rcases le_total i j with hij | hij
    · exact Or.inl (Or.inr ⟨h, hij⟩)
    · exact Or.inr (Or.inr ⟨h.symm, hij⟩)
  · exact Or.inl (Or.inl h)

instance {N : ℕ} (u : Fin N → ℚ) : IsTrans (Fin N) (topkRel u) := by
  constructor
  intro i j k hij hjk
  unfold topkRel at *
  rcases hij with h₁ | ⟨e₁, l₁⟩ <;> rcases hjk with h₂ | ⟨e₂, l₂⟩
  · exact Or.inl (h₂.trans h₁)
  · exact Or.inl (by rw [← e₂]; exact h₁)
  · exact Or.inl (by rw [e₁]; exact h₂)
  · exact Or.inr ⟨e₁.trans e₂, l₁.trans l₂⟩

/-- The `free_list` of original indices emitted by `tf.nn.top_k(-1*u, k=N)`. -/
def freeList {N : ℕ} (u : Fin N → ℚ) : List (Fin N) :=
  List.insertionSort (topkRel u) (List.finRange N)

theorem length_freeList {N : ℕ} (u : Fin N → ℚ) : (freeList u).length = N := by
  rw [freeList, List.length_insertionSort, List.length_finRange]

/-- `free_list[0][k]`: the original row index at sorted position `k`. -/
def freeIdx {N : ℕ} (u : Fin N → ℚ) (k : Fin N) : Fin N :=
  (freeList u).get ⟨k, by rw [length_freeList]; exact k.isLt⟩

/-- `sorted_usage_vec` after the `*= -1` flip: the usage value at sorted
position `k` (padded with `1` beyond position `N`). -/
def sorted_usage {N : ℕ} (u : Fin N → ℚ) (k : ℕ) : ℚ :=
  if h : k < N then -1 * (-1 * u (freeIdx u ⟨k, h⟩)) else 1

/-- `tf.cumprod(..., exclusive=True)` of the sorted usage values. -/
def cumprod_excl {N : ℕ} (u : Fin N → ℚ) (k : ℕ) : ℚ :=
  ∏ i ∈ Finset.range k, sorted_usage u i

/-- `unorder[0, k] = (1 - sorted_usage_vec[k]) * cumprod[k]`. -/
def unorder {N : ℕ} (u : Fin N → ℚ) (k : ℕ) : ℚ :=
  (1 - sorted_usage u k) * cumprod_excl u k

/-- `allocation_weighting`: the loop accumulates `identity_row(free_list[k]) *
unorder[0, k]` over sorted positions `k`, so row `i` receives the sum of
`unorder[0, k]` over positions with `free_list[k] = i`. -/
def allocation_weighting {N : ℕ} (u : Fin N → ℚ) : Fin N → ℚ :=
  fun i => ∑ k : Fin N, (if freeIdx u k = i then 1 else 0) * unorder u k

theorem sorted_freeList {N : ℕ} (u : Fin N → ℚ) :
    (freeList u).Sorted (topkRel u) :=
  List.sorted_insertionSort (topkRel u) (List.finRange N)

theorem perm_freeList {N : ℕ} (u : Fin N → ℚ) :
    (freeList u).Perm (List.finRange N) :=
  List.perm_insertionSort (topkRel u) (List.finRange N)

theorem nodup_freeList {N : ℕ} (u : Fin N → ℚ) : (freeList u).Nodup :=
  ((perm_freeList u).nodup_iff).mpr (List.nodup_finRange N)

theorem freeIdx_injective {N : ℕ} (u : Fin N → ℚ) :
    Function.Injective (freeIdx u) := by
  intro a b hab
  have h := (List.nodup_iff_injective_get).mp (nodup_freeList u) hab
  have := congrArg Fin.val h
  simpa [Fin.ext_iff] using this

theorem freeIdx_surjective {N : ℕ} (u : Fin N → ℚ) :
    Function.Surjective (freeIdx u) :=
  Finite.surjective_of_injective (freeIdx_injective u)

theorem freeIdx_mono {N : ℕ} (u : Fin N → ℚ) (a b : Fin N) (hab : a ≤ b) :
    u (freeIdx u a) ≤ u (freeIdx u b) := by
  rcases eq_or_lt_of_le hab with rfl | h
  · exact le_refl _
  · have hr := (sorted_freeList u).rel_get_of_lt
      (a := ⟨a, by rw [length_freeList]; exact a.isLt⟩)
      (b := ⟨b, by rw [length_freeList]; exact b.isLt⟩) (Fin.mk_lt_mk.mpr h)
    unfold topkRel at hr
    rcases hr with h' | ⟨h', _⟩
    · have h2 : -1 * u (freeIdx u b) < -1 * u (freeIdx u a) := h'
      linarith
    · have h2 : -1 * u (freeIdx u a) = -1 * u (freeIdx u b) := h'
      linarith

theorem allocation_weighting_freeIdx {N : ℕ} (u : Fin N → ℚ) (k : Fin N) :
    allocation_weighting u (freeIdx u k) = unorder u k := by
  unfold allocation_weighting
  rw [Finset.sum_eq_single k]
  · simp
  · intro b _ hb
    have : freeIdx u b ≠ freeIdx u k := fun h => hb (freeIdx_injective u h)
    simp [this]
  · intro h
    exact absurd (Finset.mem_univ k) h

theorem sum_unorder {N : ℕ} (u : Fin N → ℚ) (n : ℕ) :
    ∑ k ∈ Finset.range n, unorder u k = 1 - cumprod_excl u n := by
  induction n with
  | zero => simp [cumprod_excl]
  | succ n ih =>
    rw [Finset.sum_range_succ, ih]
    have hsucc : cumprod_excl u (n + 1) = cumprod_excl u n * sorted_usage u n :=
      Finset.prod_range_succ _ _
    rw [hsucc, unorder, cumprod_excl]
    ring

theorem sorted_usage_mem {N : ℕ} (u : Fin N → ℚ) (hu : ∀ i, 0 ≤ u i ∧ u i ≤ 1) (k : ℕ) :
    0 ≤ sorted_usage u k ∧ sorted_usage u k ≤ 1 := by
  unfold sorted_usage
  by_cases h : k < N
  · rw [dif_pos h]
    have := hu (freeIdx u ⟨k, h⟩)
    constructor <;> linarith
  · rw [dif_neg h]
    norm_num

theorem cumprod_excl_mem {N : ℕ} (u : Fin N → ℚ) (hu : ∀ i, 0 ≤ u i ∧ u i ≤ 1) (k : ℕ) :
    0 ≤ cumprod_excl u k ∧ cumprod_excl u k ≤ 1 := by
  constructor
  · exact Finset.prod_nonneg fun i _ => (sorted_usage_mem u hu i).1
  · exact Finset.prod_le_one (fun i _ => (sorted_usage_mem u hu i).1)
      (fun i _ => (sorted_usage_mem u hu i).2)

theorem unorder_nonneg {N : ℕ} (u : Fin N → ℚ) (hu : ∀ i, 0 ≤ u i ∧ u i ≤ 1) (k : ℕ) :
    0 ≤ unorder u k := by
  unfold unorder
  have h1 := (sorted_usage_mem u hu k).2
  exact mul_nonneg (by linarith) (cumprod_excl_mem u hu k).1

/-- C3: `allocation_weighting` sorts the usage vector ascending (retaining the
permutation of original row indices in `free_list`), takes the exclusive
cumulative product of the sorted values, sets the weight at sorted position
`k` to `(1 - sorted_u[k]) * cumprod[k]`, and scatters the weights back to the
original rows via the retained permutation. -/
theorem allocation_weighting_spec {N : ℕ} (u : Fin N → ℚ) :
    ((freeList u).map u).Sorted (· ≤ ·) ∧
    (freeList u).Perm (List.finRange N) ∧
    (∀ (k : ℕ) (h : k < N), sorted_usage u k = u (freeIdx u ⟨k, h⟩)) ∧
    (∀ k : Fin N, allocation_weighting u (freeIdx u k)
        = (1 - sorted_usage u (k : ℕ)) * ∏ i ∈ Finset.range (k : ℕ), sorted_usage u i) := by
  refine ⟨?_, perm_freeList u, ?_, ?_⟩
  · exact List.Pairwise.map u
      (fun a b hab => by
        unfold topkRel at hab
        rcases hab with h | ⟨h, _⟩ <;> linarith)
      (sorted_freeList u)
  · intro k h
    rw [sorted_usage, dif_pos h]
    ring
  · intro k
    rw [allocation_weighting_freeIdx]
    rfl

/-- C4: for usage entries in `[0,1]`, the allocation weighting is entrywise
non-negative and its entries sum to at most `1`. -/
theorem allocation_weighting_bounds {N : ℕ} (u : Fin N → ℚ)
    (hu : ∀ i, 0 ≤ u i ∧ u i ≤ 1) :
    (∀ i, 0 ≤ allocation_weighting u i) ∧ (∑ i, allocation_weighting u i) ≤ 1 := by
  constructor
  · intro i
    apply Finset.sum_nonneg
    intro k _
    apply mul_nonneg _ (unorder_nonneg u hu k)
    split <;> norm_num
  · unfold allocation_weighting
    rw [Finset.sum_comm]
    have hinner : ∀ k : Fin N,
        (∑ i : Fin N, (if freeIdx u k = i then (1:ℚ) else 0) * unorder u (k : ℕ))
          = unorder u (k : ℕ) := by
      intro k
      simp [ite_mul, Finset.sum_ite_eq]
    rw [Finset.sum_congr rfl (fun k _ => hinner k), Fin.sum_univ_eq_sum_range
      (fun k => unorder u k), sum_unorder]
    have := (cumprod_excl_mem u hu N).1
    linarith

/-- C6: for usage entries in `[0,1]`, a row with minimal usage receives an
allocation weight at least as large as every other row's. -/
theorem allocation_weighting_argmin {N : ℕ} (u : Fin N → ℚ) (hN : 0 < N)
    (hu : ∀ i, 0 ≤ u i ∧ u i ≤ 1) :
    ∃ j : Fin N, (∀ i, u j ≤ u i) ∧
      (∀ i, allocation_weighting u i ≤ allocation_weighting u j) := by
  refine ⟨freeIdx u ⟨0, hN⟩, ?_, ?_⟩
  · intro i
    obtain ⟨k, rfl⟩ := freeIdx_surjective u i
    exact freeIdx_mono u ⟨0, hN⟩ k (Fin.mk_le_of_le_val (Nat.zero_le _))
  · intro i
    obtain ⟨k, rfl⟩ := freeIdx_surjective u i
    rw [allocation_weighting_freeIdx, allocation_weighting_freeIdx]
    have hs0k : sorted_usage u 0 ≤ sorted_usage u (k : ℕ) := by
      rw [sorted_usage, sorted_usage, dif_pos hN, dif_pos k.isLt]
      have := freeIdx_mono u ⟨0, hN⟩ ⟨k, k.isLt⟩ (Fin.mk_le_of_le_val (Nat.zero_le _))
      simpa using this
    have hs0 := sorted_usage_mem u hu 0
    have hsk := sorted_usage_mem u hu (k : ℕ)
    have hcp := cumprod_excl_mem u hu (k : ℕ)
    have hval : (((⟨0, hN⟩ : Fin N) : ℕ)) = 0 := rfl
    rw [unorder, unorder, hval]
    have hcp0 : cumprod_excl u 0 = 1 := by simp [cumprod_excl]
    rw [hcp0, mul_one]
    calc (1 - sorted_usage u (k : ℕ)) * cumprod_excl u (k : ℕ)
        ≤ (1 - sorted_usage u 0) * 1 :=
          mul_le_mul (by linarith) hcp.2 hcp.1 (by linarith)
      _ = 1 - sorted_usage u 0 := mul_one _

/-! ## Content lookup (`content_lookup`, src lines 90-115)

`tf.nn.l2_normalize(x, 1)` divides each row by `sqrt(max(sum(x^2), eps))`
with `eps = 1e-12`; the similarity matrix is `norm_mem @ norm_key^T`, and
`tf.nn.softmax(sim * strength, 0)` normalises each column over the `N`
memory rows. -/

/-- `tf.nn.l2_normalize` applied to one row. -/
noncomputable def l2normalize {W : ℕ} (x : Fin W → ℝ) : Fin W → ℝ :=
  fun j => x j / Real.sqrt (max (∑ i, x i ^ 2) 1e-12)

/-- `content_lookup`: cosine similarity of each memory row with each key row,
scaled by the key's strength, then a softmax down each column. -/
noncomputable def content_lookup {N W K : ℕ} (M : Fin N → Fin W → ℝ) (key : Fin K → Fin W → ℝ)
    (strength : Fin K → ℝ) : Fin N → Fin K → ℝ :=
  let sim : Fin N → Fin K → ℝ :=
    fun i k => ∑ j, l2normalize (M i) j * l2normalize (key k) j
  fun i k => Real.exp (sim i k * strength k) / ∑ i', Real.exp (sim i' k * strength k)

/-- C5: every column of the `content_lookup` weighting is entrywise
non-negative and sums to `1`. -/
theorem content_lookup_column_simplex {N W K : ℕ} (hN : 0 < N)
    (M : Fin N → Fin W → ℝ) (key : Fin K → Fin W → ℝ) (strength : Fin K → ℝ)
    (k : Fin K) :
    (∀ i, 0 ≤ content_lookup M key strength i k) ∧
    (∑ i, content_lookup M key strength i k) = 1 := by
  have hpos : ∀ i : Fin N, (0:ℝ) < Real.exp
      ((∑ j, l2normalize (M i) j * l2normalize (key k) j) * strength k) :=
    fun i => Real.exp_pos _
  have hsum : (0:ℝ) < ∑ i' : Fin N, Real.exp
      ((∑ j, l2normalize (M i') j * l2normalize (key k) j) * strength k) := by
    apply Finset.sum_pos (fun i _ => hpos i)
    exact Finset.univ_nonempty_iff.mpr ⟨⟨0, hN⟩⟩
  constructor
  · intro i
    exact div_nonneg (hpos i).le hsum.le
  · unfold content_lookup
    rw [← Finset.sum_div]
    exact div_self (ne_of_gt hsum)

/-! ## Interface activations (`partition_interface`, src lines 172-196) -/

/-- `tf.nn.softplus`. -/
noncomputable def softplus (x : ℝ) : ℝ := Real.log (1 + Real.exp x)

/-- `tf.nn.sigmoid`. -/
noncomputable def sigmoid (x : ℝ) : ℝ := 1 / (1 + Real.exp (-x))

/-- `b_read = 1 + tf.nn.softplus(...)` applied to the read-strength field of
the interface vector (src line 174). -/
noncomputable def b_read (R W : ℕ) (v : List ℝ) : List ℝ :=
  (dynamicPartition v (partitionLabels R W) 1).map (fun x => 1 + softplus x)

/-- `b_write = 1 + tf.nn.softplus(...)` applied to the write-strength field of
the interface vector (src line 178). -/
noncomputable def b_write (R W : ℕ) (v : List ℝ) : List ℝ :=
  (dynamicPartition v (partitionLabels R W) 3).map (fun x => 1 + softplus x)

theorem one_le_one_add_softplus (x : ℝ) : 1 ≤ 1 + softplus x := by
  have h : 0 ≤ softplus x := Real.log_nonneg (by linarith [Real.exp_pos x])
  linarith

/-- C7: every read strength in `b_read` and the write strength in `b_write`
are `≥ 1`, being `1 + softplus` of the raw interface entries. -/
theorem strengths_ge_one (R W : ℕ) (v : List ℝ) (x : ℝ)
    (hx : x ∈ b_read R W v ∨ x ∈ b_write R W v) : 1 ≤ x := by
  rcases hx with hx | hx <;>
    · obtain ⟨y, -, rfl⟩ := List.mem_map.mp hx
      exact one_le_one_add_softplus y

/-! ## Write Engine memory update (spec §4.5) -/

/-- Modelled from the spec: the Write Engine memory update
`M_new = M_prev ⊙ (1 - w_w ⊗ erase) + w_w ⊗ write_v` (outer product
broadcasting the `N`-length weighting against the `W`-length erase/write
vectors).  The `write` method in the source (src lines 198-199) is an
unimplemented `pass` stub, so this step is taken from the spec's formula. -/
def write_memory_update {N W : ℕ} (M : Fin N → Fin W → ℚ) (w_w : Fin N → ℚ)
    (erase write_v : Fin W → ℚ) : Fin N → Fin W → ℚ :=
  fun i j => M i j * (1 - w_w i * erase j) + w_w i * write_v j

/-- A one-hot write weighting concentrated on row `k`. -/
def oneHot {N : ℕ} (k : Fin N) : Fin N → ℚ := fun i => if i = k then 1 else 0

/-- C1: writing `write_v` with an all-ones erase vector and a one-hot write
weighting on row `k` replaces row `k` of memory exactly with `write_v` and
leaves every other row unchanged. -/
theorem write_one_hot_round_trip {N W : ℕ} (M : Fin N → Fin W → ℚ) (k : Fin N)
    (write_v : Fin W → ℚ) :
    (∀ j, write_memory_update M (oneHot k) (fun _ => 1) write_v k j = write_v j) ∧
    (∀ i, i ≠ k → ∀ j,
      write_memory_update M (oneHot k) (fun _ => 1) write_v i j = M i j) := by
  constructor
  · intro j
    simp [write_memory_update, oneHot]
  · intro i hik j
    simp [write_memory_update, oneHot, hik]

/-! ## Per-step state (`DNC.__init__` and `call`, src lines 9-88 and 204-222) -/

/-- `tf.reshape(read_modes, [3, R])` followed by `tf.nn.softmax(..., axis=0)`
(src lines 192-193), element `(m, r)` read row-major from the logit list. -/
noncomputable def read_modes (R : ℕ) (l : List ℝ) : Fin 3 → Fin R → ℝ :=
  fun m r => Real.exp (l.getD (m * R + r) 0) / ∑ m' : Fin 3, Real.exp (l.getD (m' * R + r) 0)

/-- `partition_interface` (src lines 162-196): the ten fields of the interface
vector with their activations (`1+softplus` strengths, sigmoid gates and
erase vector, softmax read modes). -/
noncomputable def partition_interface (R W : ℕ) (v : List ℝ) :
    List ℝ × List ℝ × List ℝ × List ℝ × List ℝ × List ℝ × List ℝ × List ℝ × List ℝ ×
      (Fin 3 → Fin R → ℝ) :=
  (dynamicPartition v (partitionLabels R W) 0,
   b_read R W v,
   dynamicPartition v (partitionLabels R W) 2,
   b_write R W v,
   (dynamicPartition v (partitionLabels R W) 4).map sigmoid,
   dynamicPartition v (partitionLabels R W) 5,
   (dynamicPartition v (partitionLabels R W) 6).map sigmoid,
   (dynamicPartition v (partitionLabels R W) 7).map sigmoid,
   (dynamicPartition v (partitionLabels R W) 8).map sigmoid,
   read_modes R (dynamicPartition v (partitionLabels R W) 9))

/-- The recurrent state of one `DNC` instance (src lines 49-88): memory matrix,
usage vector, temporal link matrix, precedence vector, read/write weightings,
read vectors, controller state `h`/`c`, the output and interface vectors, and
the output/interface projection weights. -/
structure State (N W R Y : ℕ) where
  M : Fin N → Fin W → ℝ
  usage : Fin N → ℝ
  L : Fin N → Fin N → ℝ
  W_precedence : Fin N → ℝ
  W_read : Fin N → Fin R → ℝ
  W_write : Fin N → ℝ
  read_v : Fin R → Fin W → ℝ
  h : Fin (Y + interfaceDim R W) → ℝ
  c : Fin (Y + interfaceDim R W) → ℝ
  output : Fin Y → ℝ
  interface : Fin (interfaceDim R W) → ℝ
  W_output : Fin (Y + interfaceDim R W) → Fin Y → ℝ
  W_interface : Fin (Y + interfaceDim R W) → Fin (interfaceDim R W) → ℝ

/-- `def write(self): pass` (src lines 198-199): the write step changes no
state field. -/
def write_step {N W R Y : ℕ} (s : State N W R Y) : State N W R Y := s

/-- `def read(self): pass` (src lines 201-202): the read step changes no
state field. -/
def read_step {N W R Y : ℕ} (s : State N W R Y) : State N W R Y := s

/-- `call` (src lines 204-222): runs the controller (the freshly built
`Dense`/`LSTM` layers, represented by the parameter `ctrl`), projects the new
hidden state to the output and interface vectors, partitions the interface
vector (the result is unused), invokes the stubbed write and read steps, and
falls off the end of the function body, returning `None`. -/
noncomputable def call {N W R Y X : ℕ}
    (ctrl : (Fin (Y + interfaceDim R W) → ℝ) → (Fin (Y + interfaceDim R W) → ℝ) →
      (Fin X → ℝ) →
      (Fin (Y + interfaceDim R W) → ℝ) × (Fin (Y + interfaceDim R W) → ℝ))
    (s : State N W R Y) (x : Fin X → ℝ) : State N W R Y × Option (Fin Y → ℝ) :=
  let hc := ctrl s.h s.c x
  let output' : Fin Y → ℝ := fun y => ∑ i, hc.1 i * s.W_output i y
  let interface' : Fin (interfaceDim R W) → ℝ := fun j => ∑ i, hc.1 i * s.W_interface i j
  let _parts := partition_interface R W ((List.finRange (interfaceDim R W)).map interface')
  let s' : State N W R Y :=
    { s with h := hc.1, c := hc.2, output := output', interface := interface' }
  (read_step (write_step s'), none)

/-- `DNC.__init__` (src lines 49-72): `M`, `L` and `W_precedence` start at
zero; `usage`, `W_read`, `W_write` and `read_v` at `1e-6`; the controller
state, output/interface vectors and projection weights are drawn from
truncated normals, represented here as parameters. -/
noncomputable def initState (N W R Y : ℕ)
    (h0 c0 : Fin (Y + interfaceDim R W) → ℝ) (out0 : Fin Y → ℝ)
    (int0 : Fin (interfaceDim R W) → ℝ)
    (Wout : Fin (Y + interfaceDim R W) → Fin Y → ℝ)
    (Wint : Fin (Y + interfaceDim R W) → Fin (interfaceDim R W) → ℝ) :
    State N W R Y :=
  { M := fun _ _ => 0
    usage := fun _ => 1e-6
    L := fun _ _ => 0
    W_precedence := fun _ => 0
    W_read := fun _ _ => 1e-6
    W_write := fun _ => 1e-6
    read_v := fun _ _ => 1e-6
    h := h0
    c := c0
    output := out0
    interface := int0
    W_output := Wout
    W_interface := Wint }

/-- Running `call` over a list of inputs in sequence. -/
noncomputable def runSteps {N W R Y X : ℕ}
    (ctrl : (Fin (Y + interfaceDim R W) → ℝ) → (Fin (Y + interfaceDim R W) → ℝ) →
      (Fin X → ℝ) →
      (Fin (Y + interfaceDim R W) → ℝ) × (Fin (Y + interfaceDim R W) → ℝ))
    (s : State N W R Y) (xs : List (Fin X → ℝ)) : State N W R Y :=
  xs.foldl (fun st x => (call ctrl st x).1) s

theorem call_L_eq {N W R Y X : ℕ} (ctrl) (s : State N W R Y) (x : Fin X → ℝ) :
    ((call ctrl s x).1).L = s.L := rfl

/-- C9: one invocation of `call` leaves the memory matrix, the usage vector,
the temporal link matrix and the precedence vector exactly as they were. -/
theorem call_preserves_memory_state {N W R Y X : ℕ} (ctrl) (s : State N W R Y)
    (x : Fin X → ℝ) :
    ((call ctrl s x).1).M = s.M ∧ ((call ctrl s x).1).usage = s.usage ∧
    ((call ctrl s x).1).L = s.L ∧ ((call ctrl s x).1).W_precedence = s.W_precedence :=
  ⟨rfl, rfl, rfl, rfl⟩

/-- C10: `call` returns `None` despite its declared `tf.Tensor` return type,
and never computes the `R` read vectors (the `read_v` field is untouched). -/
theorem call_returns_none {N W R Y X : ℕ} (ctrl) (s : State N W R Y)
    (x : Fin X → ℝ) :
    (call ctrl s x).2 = none ∧ ((call ctrl s x).1).read_v = s.read_v :=
  ⟨rfl, rfl⟩

/-- C8: the diagonal of the temporal link matrix is exactly zero in the
initial state and after every per-step `call` update, for all inputs. -/
theorem L_diagonal_zero {N W R Y X : ℕ}
    (h0 c0 : Fin (Y + interfaceDim R W) → ℝ) (out0 : Fin Y → ℝ)
    (int0 : Fin (interfaceDim R W) → ℝ)
    (Wout : Fin (Y + interfaceDim R W) → Fin Y → ℝ)
    (Wint : Fin (Y + interfaceDim R W) → Fin (interfaceDim R W) → ℝ)
    (ctrl : (Fin (Y + interfaceDim R W) → ℝ) → (Fin (Y + interfaceDim R W) → ℝ) →
      (Fin X → ℝ) →
      (Fin (Y + interfaceDim R W) → ℝ) × (Fin (Y + interfaceDim R W) → ℝ))
    (xs : List (Fin X → ℝ)) (i : Fin N) :
    (initState N W R Y h0 c0 out0 int0 Wout Wint).L i i = 0 ∧
    (runSteps ctrl (initState N W R Y h0 c0 out0 int0 Wout Wint) xs).L i i = 0 := by
  have hrun : ∀ (xs : List (Fin X → ℝ)) (s : State N W R Y),
      (runSteps ctrl s xs).L = s.L := by
    intro xs
    induction xs with
    | nil => intro s; rfl
    | cons x t ih =>
      intro s
      calc (runSteps ctrl s (x :: t)).L
          = (runSteps ctrl ((call ctrl s x).1) t).L := rfl
        _ = ((call ctrl s x).1).L := ih _
        _ = s.L := call_L_eq ctrl s x
  exact ⟨rfl, by rw [hrun]; rfl⟩

/-! ## Concrete instances -/

def uW : Fin 2 → ℚ := fun i => if i = 0 then 1 else 0

def M2 : Fin 2 → Fin 1 → ℚ := fun _ _ => 5

def vW1 : Fin 1 → ℚ := fun _ => 7

def vEx : List ℚ := [0, 1, 2, 3, 4, 5, 6, 7, 8, 9, 10, 11]

noncomputable def M1 : Fin 1 → Fin 1 → ℝ := fun _ _ => 0

noncomputable def key1 : Fin 1 → Fin 1 → ℝ := fun _ _ => 0

noncomputable def s1 : Fin 1 → ℝ := fun _ => 1

noncomputable def v7 : List ℝ := [0, 0, 0, 0, 0, 0, 0, 0, 0, 0, 0, 0]

theorem write_one_hot_round_trip_witness :
    ((1 : Fin 2) ≠ 0) ∧
    write_memory_update M2 (oneHot 0) (fun _ => 1) vW1 1 0 = M2 1 0 :=
  ⟨by decide, (write_one_hot_round_trip M2 0 vW1).2 1 (by decide) 0⟩

theorem partition_interface_slices_witness :
    vEx.length = interfaceDim 1 1 ∧
    dynamicPartition vEx (partitionLabels 1 1) 0 = vEx.take (1*1) ∧
    dynamicPartition vEx (partitionLabels 1 1) 9 =
      (vEx.drop (1*1 + 1 + 1 + 1 + 1 + 1 + 1 + 1 + 1)).take (1*3) :=
  ⟨by decide, (partition_interface_slices 1 1 vEx (by decide)).1,
    (partition_interface_slices 1 1 vEx (by decide)).2.2.2.2.2.2.2.2.2⟩

theorem allocation_weighting_spec_witness :
    (0 : ℕ) < 2 ∧ sorted_usage uW 0 = uW (freeIdx uW (0 : Fin 2)) :=
  ⟨by decide, (allocation_weighting_spec uW).2.2.1 0 (by decide)⟩

theorem allocation_weighting_bounds_witness :
    (∀ i, 0 ≤ uW i ∧ uW i ≤ 1) ∧
    ((∀ i, 0 ≤ allocation_weighting uW i) ∧ (∑ i, allocation_weighting uW i) ≤ 1) :=
  ⟨by decide, allocation_weighting_bounds uW (by decide)⟩

theorem allocation_weighting_argmin_witness :
    (0 : ℕ) < 2 ∧ (∀ i, 0 ≤ uW i ∧ uW i ≤ 1) ∧
    (∃ j : Fin 2, (∀ i, uW j ≤ uW i) ∧
      (∀ i, allocation_weighting uW i ≤ allocation_weighting uW j)) :=
  ⟨by decide, by decide, allocation_weighting_argmin uW (by decide) (by decide)⟩

theorem content_lookup_column_simplex_witness :
    (0 : ℕ) < 1 ∧
    ((∀ i, 0 ≤ content_lookup M1 key1 s1 i 0) ∧
      (∑ i, content_lookup M1 key1 s1 i 0) = 1) :=
  ⟨by decide, content_lookup_column_simplex (by decide) M1 key1 s1 0⟩

theorem strengths_ge_one_witness :
    ((1 + softplus 0) ∈ b_read 1 1 v7 ∨ (1 + softplus 0) ∈ b_write 1 1 v7) ∧
    1 ≤ 1 + softplus 0 := by
  have hmem : (1 + softplus 0) ∈ b_read 1 1 v7 := by
    rw [show b_read 1 1 v7 = [1 + softplus 0] from rfl]
    exact List.mem_singleton.mpr rfl
  exact ⟨Or.inl hmem, strengths_ge_one 1 1 v7 _ (Or.inl hmem)⟩

end DNC
